import Mathlib

/-! Shallow embedding of the migration engine of `duckdb_flyway.py`
(`MigrationsService`: `init_migrations_table`, `get_applied_migrations`,
`validate_migration_order`, `apply_migration`, `run_migrations`) over an
abstract database state, together with proofs of the engine's ordering,
atomicity and bookkeeping properties.

The database is split into the engine-owned `_migrations` record table and
the user-visible state `α` that migrations' `run` procedures change; a `run`
procedure is an arbitrary function `α → Except String α`, raising an
exception being modelled by `Except.error`.  Transactional rollback restores
the pre-`begin` snapshot, as guaranteed by the underlying connection.  A
ghost trace of `Event`s records which procedures the engine invoked and
which migrations it recorded as applied; it is observation only and does not
influence control flow. -/

/-- Migration descriptor `Migration(id, run)` from `migrations.types`:
`id` is a lexicographically sortable string, `run` performs arbitrary
changes to the user state inside the open transaction or raises. -/
structure Migration (α : Type) where
  id : String
  run : α → Except String α

/-- Database state: the `_migrations` table (`none` until created; the rows'
`id` column in insertion order) plus the user state changed by migrations. -/
structure DB (α : Type) where
  store : Option (List String)
  user : α
  deriving DecidableEq

variable {α : Type}

/-- Rows of the record table, `[]` when the table does not exist. -/
def storeRows (db : DB α) : List String := db.store.getD []

/-- Cause of an exception inside `apply_migration`'s try block: the
migration's procedure raised, or the record insert hit a missing table or a
duplicate primary key. -/
inductive Cause where
  | userErr (msg : String)
  | duplicateKey (id : String)
  | missingTable
  deriving DecidableEq

/-- Ghost trace entry: `invoke id` when a migration's `run` is called,
`record id` when its row is inserted and its transaction committed. -/
inductive Event where
  | invoke (id : String)
  | record (id : String)
  deriving DecidableEq

/-- Underlying cause of a `MigrationError` raised inside `run_migrations`:
the order validation failed, or `apply_migration` failed on one id, or the
record store could not be read. -/
inductive Err where
  | orderViolation (maxApplied : String)
  | migrationFailed (id : String) (cause : Cause)
  | storeError
  deriving DecidableEq

/-- Result of `apply_migration`: the committed state on success; on failure
the raised `MigrationError` carries the migration id and the cause, and the
carried state is the connection state after `rollback()`. -/
inductive ApplyResult (α : Type) where
  | ok (db : DB α)
  | failed (id : String) (cause : Cause) (db : DB α)
  deriving DecidableEq

/-- Result of `run_migrations`: `failed e db evs` models
`raise MigrationError("Failed to run migrations") from e`, wrapping the
originating error `e`, with `db` the state at that point and `evs` the ghost
trace of the whole call. -/
inductive RunResult (α : Type) where
  | ok (db : DB α) (events : List Event)
  | failed (cause : Err) (db : DB α) (events : List Event)
  deriving DecidableEq

/-- Ghost trace of a run's result. -/
def RunResult.events : RunResult α → List Event
  | .ok _ evs => evs
  | .failed _ _ evs => evs

/-- Database state a run's result carries. -/
def RunResult.db : RunResult α → DB α
  | .ok db _ => db
  | .failed _ db _ => db

/-- Prepends earlier ghost events to a result. -/
def RunResult.prepend (evs : List Event) : RunResult α → RunResult α
  | .ok db e => .ok db (evs ++ e)
  | .failed c db e => .failed c db (evs ++ e)

/-- `init_migrations_table`: `CREATE TABLE IF NOT EXISTS _migrations (id
TEXT PRIMARY KEY, applied_at TIMESTAMP DEFAULT now())`. -/
def init_migrations_table (db : DB α) : DB α :=
  match db.store with
  | some _ => db
  | none => { db with store := some [] }

/-- Sorting of ids, ascending; `ORDER BY id` of the record store. -/
def sortIds (rows : List String) : List String :=
  List.insertionSort (· ≤ ·) rows

/-- `get_applied_migrations`: `SELECT id FROM _migrations ORDER BY id`,
returning the applied ids sorted ascending; errors when the table does not
exist. -/
def get_applied_migrations (db : DB α) : Except Cause (List String) :=
  match db.store with
  | none => .error .missingTable
  | some rows => .ok (sortIds rows)

/-- `max(applied)`; meaningful on a nonempty collection of ids. -/
def maxString : List String → String
  | [] => ""
  | x :: xs => xs.foldl max x

/-- `validate_migration_order`: succeeds at once when nothing is applied;
otherwise fails (`some e` models raising `MigrationError`) when some not yet
applied candidate has an id below the greatest applied id. -/
def validate_migration_order (ms : List (Migration α)) (applied : List String) :
    Option Err :=
  if applied.isEmpty then none
  else
    let mx := maxString applied
    let newMs := ms.filter (fun m => decide (m.id ∉ applied))
    if newMs.any (fun m => decide (m.id < mx)) then some (.orderViolation mx)
    else none

/-- `INSERT INTO _migrations (id) VALUES (?)`: fails when the table is
missing or the primary key `id` is already present; otherwise appends. -/
def insert_migration_row (store : Option (List String)) (id : String) :
    Except Cause (List String) :=
  match store with
  | none => .error .missingTable
  | some rows =>
    if id ∈ rows then .error (.duplicateKey id) else .ok (rows ++ [id])

/-- `apply_migration`: `con.begin()`; `migration.run(con)`; insert the record
row; `con.commit()`.  Any exception on the way triggers `con.rollback()`,
restoring the pre-`begin` snapshot `db`, and the raised `MigrationError`
carries the migration id and the underlying cause. -/
def apply_migration (m : Migration α) (db : DB α) : ApplyResult α :=
  match m.run db.user with
  | .error e => .failed m.id (.userErr e) db
  | .ok u =>
    match insert_migration_row db.store m.id with
    | .error c => .failed m.id c db
    | .ok rows => .ok ⟨some rows, u⟩

/-- Ordering of migrations by id; the key of
`sorted(migrations, key=lambda m: m.id)`. -/
def migLE (a b : Migration α) : Prop := a.id ≤ b.id

instance : DecidableRel (@migLE α) :=
  fun a b => inferInstanceAs (Decidable (a.id ≤ b.id))

instance : IsTotal (Migration α) migLE := ⟨fun a b => le_total a.id b.id⟩

instance : IsTrans (Migration α) migLE := ⟨fun _ _ _ h h' => le_trans h h'⟩

/-- Loop of `run_migrations` over the sorted candidates: skip a migration
whose id is already applied, apply the rest one by one; the first failure
aborts the loop and surfaces as the wrapped `MigrationError`. -/
def run_loop (applied : List String) : List (Migration α) → DB α → RunResult α
  | [], db => .ok db []
  | m :: rest, db =>
    if m.id ∈ applied then run_loop applied rest db
    else
      match apply_migration m db with
      | .ok db' => (run_loop applied rest db').prepend [.invoke m.id, .record m.id]
      | .failed i c db' => .failed (.migrationFailed i c) db' [.invoke i]

/-- `run_migrations`: create the record store if needed, read the applied
ids, validate the ordering, then apply the whole candidate collection sorted
ascending by id, skipping already applied ids.  Any exception is wrapped in
a run-level `MigrationError` (the `failed` constructor). -/
def run_migrations (ms : List (Migration α)) (db : DB α) : RunResult α :=
  let db1 := init_migrations_table db
  match get_applied_migrations db1 with
  | .error _ => .failed .storeError db1 []
  | .ok applied =>
    match validate_migration_order ms applied with
    | some e => .failed e db1 []
    | none => run_loop applied (List.insertionSort migLE ms) db1

/-- Repeated `run_migrations` invocations over the same database (the caller
re-invoking after failures): the final state and the concatenated ghost
events of every run. -/
def run_seq (db : DB α) : List (List (Migration α)) → DB α × List Event
  | [] => (db, [])
  | ms :: rest =>
    let r := run_migrations ms db
    let p := run_seq r.db rest
    (p.1, r.events ++ p.2)

/-- Ids whose `run` procedure was invoked, in order. -/
def invokedIds (evs : List Event) : List String :=
  evs.filterMap (fun e => match e with | .invoke i => some i | .record _ => none)

/-- Ids recorded as applied (row inserted and transaction committed), in
order. -/
def recordedIds (evs : List Event) : List String :=
  evs.filterMap (fun e => match e with | .record i => some i | .invoke _ => none)

/-- Concrete user state for witnesses: the list of created table names. -/
abbrev Tables := List String

/-- Concrete migration whose procedure creates table `t`. -/
def mkCreate (i t : String) : Migration Tables :=
  ⟨i, fun ts => .ok (ts ++ [t])⟩

/-- Concrete migration whose procedure raises. -/
def mkFail (i : String) : Migration Tables :=
  ⟨i, fun _ => .error "boom"⟩

/-- Fresh database: no record store yet, no tables. -/
def emptyDB : DB Tables := ⟨none, []⟩

/-- Database whose record store holds `rows`, with no tables. -/
def dbWith (rows : List String) : DB Tables := ⟨some rows, []⟩

/-! Helper lemmas about the embedded operations. -/

theorem RunResult.prepend_events (evs : List Event) (r : RunResult α) :
    (r.prepend evs).events = evs ++ r.events := by
  cases r <;> rfl

theorem RunResult.prepend_db (evs : List Event) (r : RunResult α) :
    (r.prepend evs).db = r.db := by
  cases r <;> rfl

theorem init_store (db : DB α) :
    (init_migrations_table db).store = some (storeRows db) := by
  cases h : db.store <;> simp [init_migrations_table, storeRows, h]

theorem init_user (db : DB α) :
    (init_migrations_table db).user = db.user := by
  cases h : db.store <;> simp [init_migrations_table, h]

theorem storeRows_init (db : DB α) :
    storeRows (init_migrations_table db) = storeRows db := by
  simp [storeRows, init_store]

theorem get_applied_init (db : DB α) :
    get_applied_migrations (init_migrations_table db) =
      .ok (sortIds (storeRows db)) := by
  simp [get_applied_migrations, init_store db]

theorem mem_sortIds {a : String} {rows : List String} :
    a ∈ sortIds rows ↔ a ∈ rows := by
  simp [sortIds]

theorem le_foldl_max (xs : List String) :
    ∀ (x a : String), a ∈ x :: xs → a ≤ xs.foldl max x := by
  induction xs with
  | nil =>
    intro x a ha
    simp only [List.mem_cons, List.not_mem_nil, or_false] at ha
    simp [ha]
  | cons y ys ih =>
    intro x a ha
    show a ≤ ys.foldl max (max x y)
    rcases List.mem_cons.mp ha with h1 | h1
    · exact le_trans (h1 ▸ le_max_left x y)
        (ih (max x y) (max x y) (List.mem_cons_self _ _))
    rcases List.mem_cons.mp h1 with h2 | h2
    · exact le_trans (h2 ▸ le_max_right x y)
        (ih (max x y) (max x y) (List.mem_cons_self _ _))
    · exact ih (max x y) a (List.mem_cons_of_mem _ h2)

theorem foldl_max_mem (xs : List String) :
    ∀ x : String, xs.foldl max x ∈ x :: xs := by
  induction xs with
  | nil => intro x; simp
  | cons y ys ih =>
    intro x
    have h : ys.foldl max (max x y) ∈ (max x y) :: ys := ih (max x y)
    have hfold : (y :: ys).foldl max x = ys.foldl max (max x y) := rfl
    rcases List.mem_cons.mp h with h1 | h1
    · rw [hfold, h1]
      rcases max_choice x y with hc | hc
      · rw [hc]; exact List.mem_cons_self _ _
      · rw [hc]; exact List.mem_cons_of_mem _ (List.mem_cons_self _ _)
    · rw [hfold]
      exact List.mem_cons_of_mem _ (List.mem_cons_of_mem _ h1)

theorem maxString_spec (l : List String) (h : l ≠ []) :
    maxString l ∈ l ∧ ∀ a ∈ l, a ≤ maxString l := by
  cases l with
  | nil => exact absurd rfl h
  | cons x xs =>
    exact ⟨foldl_max_mem xs x, fun a ha => le_foldl_max xs x a ha⟩

theorem validate_none_iff (ms : List (Migration α)) (applied : List String) :
    validate_migration_order ms applied = none ↔
      applied = [] ∨
        ∀ m ∈ ms, m.id ∉ applied → ¬ m.id < maxString applied := by
  by_cases he : applied = []
  · simp [validate_migration_order, he]
  · have hne : applied.isEmpty = false := by
      simpa [List.isEmpty_iff] using he
    simp only [validate_migration_order, hne, Bool.false_eq_true, if_false]
    cases hany : (ms.filter (fun m => decide (m.id ∉ applied))).any
        (fun m => decide (m.id < maxString applied)) with
    | true =>
      simp only [hany, if_true, reduceCtorEq, false_iff, not_or]
      obtain ⟨m, hm, hlt⟩ := List.any_eq_true.mp hany
      obtain ⟨hmem, hnotappl⟩ := List.mem_filter.mp hm
      refine ⟨he, ?_⟩
      intro hall
      exact hall m hmem (of_decide_eq_true hnotappl) (of_decide_eq_true hlt)
    | false =>
      simp only [hany, Bool.false_eq_true, if_false, true_iff]
      right
      intro m hm hnot hlt
      have : (ms.filter (fun m => decide (m.id ∉ applied))).any
          (fun m => decide (m.id < maxString applied)) = true :=
        List.any_eq_true.mpr
          ⟨m, List.mem_filter.mpr ⟨hm, decide_eq_true hnot⟩, decide_eq_true hlt⟩
      exact Bool.noConfusion (this.symm.trans hany)

theorem validate_some_iff (ms : List (Migration α)) (applied : List String) (e : Err) :
    validate_migration_order ms applied = some e ↔
      e = .orderViolation (maxString applied) ∧ applied ≠ [] ∧
        ∃ m ∈ ms, m.id ∉ applied ∧ m.id < maxString applied := by
  by_cases he : applied = []
  · simp [validate_migration_order, he]
  · have hne : applied.isEmpty = false := by
      simpa [List.isEmpty_iff] using he
    simp only [validate_migration_order, hne, Bool.false_eq_true, if_false]
    cases hany : (ms.filter (fun m => decide (m.id ∉ applied))).any
        (fun m => decide (m.id < maxString applied)) with
    | true =>
      simp only [hany, if_true, Option.some.injEq]
      obtain ⟨m, hm, hlt⟩ := List.any_eq_true.mp hany
      obtain ⟨hmem, hnotappl⟩ := List.mem_filter.mp hm
      constructor
      · intro hEq
        exact ⟨hEq.symm, he,
          m, hmem, of_decide_eq_true hnotappl, of_decide_eq_true hlt⟩
      · intro h
        exact h.1.symm
    | false =>
      simp only [hany, Bool.false_eq_true, if_false, reduceCtorEq, false_iff, not_and]
      intro _ _ h
      obtain ⟨m, hm, hnot, hlt⟩ := h
      have : (ms.filter (fun m => decide (m.id ∉ applied))).any
          (fun m => decide (m.id < maxString applied)) = true :=
        List.any_eq_true.mpr
          ⟨m, List.mem_filter.mpr ⟨hm, decide_eq_true hnot⟩, decide_eq_true hlt⟩
      exact Bool.noConfusion (this.symm.trans hany)

theorem apply_run_error {m : Migration α} {db : DB α} {e : String}
    (h : m.run db.user = .error e) :
    apply_migration m db = .failed m.id (.userErr e) db := by
  simp [apply_migration, h]

theorem apply_insert_error {m : Migration α} {db : DB α} {u : α} {c : Cause}
    (h : m.run db.user = .ok u) (h' : insert_migration_row db.store m.id = .error c) :
    apply_migration m db = .failed m.id c db := by
  simp [apply_migration, h, h']

theorem apply_ok_iff {m : Migration α} {db db' : DB α} :
    apply_migration m db = .ok db' ↔
      ∃ u rows, m.run db.user = .ok u ∧ db.store = some rows ∧
        m.id ∉ rows ∧ db' = ⟨some (rows ++ [m.id]), u⟩ := by
  constructor
  · intro h
    cases hr : m.run db.user with
    | error e => simp [apply_migration, hr] at h
    | ok u =>
      cases hs : db.store with
      | none => simp [apply_migration, insert_migration_row, hr, hs] at h
      | some rows =>
        by_cases hm : m.id ∈ rows
        · simp [apply_migration, insert_migration_row, hr, hs, hm] at h
        · simp only [apply_migration, insert_migration_row, hr, hs, hm,
            if_false, if_neg hm] at h
          exact ⟨u, rows, rfl, rfl, hm, (ApplyResult.ok.injEq .. ▸ h).symm⟩
  · rintro ⟨u, rows, hr, hs, hm, rfl⟩
    simp [apply_migration, insert_migration_row, hr, hs, hm]

theorem apply_failed_inv {m : Migration α} {db db' : DB α} {i : String} {c : Cause}
    (h : apply_migration m db = .failed i c db') :
    i = m.id ∧ db' = db := by
  cases hr : m.run db.user with
  | error e =>
    simp only [apply_migration, hr] at h
    exact ⟨(ApplyResult.failed.injEq .. ▸ h).1.symm,
      ((ApplyResult.failed.injEq .. ▸ h).2.2).symm⟩
  | ok u =>
    cases hi : insert_migration_row db.store m.id with
    | error c' =>
      simp only [apply_migration, hr, hi] at h
      exact ⟨(ApplyResult.failed.injEq .. ▸ h).1.symm,
        ((ApplyResult.failed.injEq .. ▸ h).2.2).symm⟩
    | ok rows =>
      simp [apply_migration, hr, hi] at h

theorem recordedIds_append (e1 e2 : List Event) :
    recordedIds (e1 ++ e2) = recordedIds e1 ++ recordedIds e2 := by
  simp [recordedIds]

theorem invokedIds_append (e1 e2 : List Event) :
    invokedIds (e1 ++ e2) = invokedIds e1 ++ invokedIds e2 := by
  simp [invokedIds]

theorem recordedIds_step (i : String) (evs : List Event) :
    recordedIds (.invoke i :: .record i :: evs) = i :: recordedIds evs := rfl

theorem recordedIds_invoke (i : String) :
    recordedIds [Event.invoke i] = [] := rfl

theorem invokedIds_invoke (i : String) :
    invokedIds [Event.invoke i] = [i] := rfl

theorem invokedIds_step (i : String) (evs : List Event) :
    invokedIds (.invoke i :: .record i :: evs) = i :: invokedIds evs := rfl

theorem run_loop_store (applied : List String) (l : List (Migration α)) :
    ∀ db : DB α,
      ((run_loop applied l db).db).store =
        db.store.map (· ++ recordedIds (run_loop applied l db).events) := by
  induction l with
  | nil =>
    intro db
    show db.store = db.store.map (· ++ recordedIds [])
    cases db.store <;> simp [recordedIds]
  | cons m rest ih =>
    intro db
    by_cases hmem : m.id ∈ applied
    · simpa [run_loop, hmem] using ih db
    · simp only [run_loop, hmem, if_false]
      cases hap : apply_migration m db with
      | ok db' =>
        obtain ⟨u, rows, hr, hs, hni, rfl⟩ := apply_ok_iff.mp hap
        simp only [RunResult.prepend_db, RunResult.prepend_events]
        have ihx := ih ⟨some (rows ++ [m.id]), u⟩
        rw [show ([Event.invoke m.id, Event.record m.id] : List Event) ++
              (run_loop applied rest ⟨some (rows ++ [m.id]), u⟩).events =
            Event.invoke m.id :: Event.record m.id ::
              (run_loop applied rest ⟨some (rows ++ [m.id]), u⟩).events from rfl,
          recordedIds_step, ihx, hs]
        simp [List.append_assoc]
      | failed i c db' =>
        have hdb := (apply_failed_inv hap).2
        show db'.store = db.store.map (· ++ recordedIds [Event.invoke i])
        rw [hdb, recordedIds_invoke]
        cases hs : db.store <;> simp

theorem run_loop_order (applied : List String) (l : List (Migration α)) :
    ∀ db : DB α, l.Sorted migLE →
      (recordedIds (run_loop applied l db).events).Sorted (· < ·) ∧
      (invokedIds (run_loop applied l db).events).Sorted (· ≤ ·) ∧
      (∀ i ∈ recordedIds (run_loop applied l db).events,
        i ∈ l.map Migration.id ∧ i ∉ storeRows db) ∧
      (∀ i ∈ invokedIds (run_loop applied l db).events,
        i ∈ l.map Migration.id ∧ i ∉ applied) := by
  induction l with
  | nil =>
    intro db _
    exact ⟨List.sorted_nil, List.sorted_nil, by simp [recordedIds, run_loop,
      RunResult.events], by simp [invokedIds, run_loop, RunResult.events]⟩
  | cons m rest ih =>
    intro db hsort
    obtain ⟨hhead, htail⟩ := List.sorted_cons.mp hsort
    by_cases hmem : m.id ∈ applied
    · have ihx := ih db htail
      refine ⟨?_, ?_, ?_, ?_⟩ <;> simp only [run_loop, hmem, if_true]
      · exact ihx.1
      · exact ihx.2.1
      · exact fun i hi => ⟨List.mem_cons_of_mem _ (ihx.2.2.1 i hi).1,
          (ihx.2.2.1 i hi).2⟩
      · exact fun i hi => ⟨List.mem_cons_of_mem _ (ihx.2.2.2 i hi).1,
          (ihx.2.2.2 i hi).2⟩
    · simp only [run_loop, hmem, if_false]
      cases hap : apply_migration m db with
      | ok db' =>
        obtain ⟨u, rows, hr, hs, hni, rfl⟩ := apply_ok_iff.mp hap
        have ihx := ih ⟨some (rows ++ [m.id]), u⟩ htail
        have hrows : storeRows db = rows := by simp [storeRows, hs]
        have hrows' : storeRows (⟨some (rows ++ [m.id]), u⟩ : DB α) =
            rows ++ [m.id] := by simp [storeRows]
        set evs := (run_loop applied rest ⟨some (rows ++ [m.id]), u⟩).events with hevs
        have hle : ∀ i ∈ recordedIds evs ++ invokedIds evs, m.id ≤ i := by
          intro i hi
          have himap : i ∈ rest.map Migration.id := by
            rcases List.mem_append.mp hi with h1 | h1
            · exact (ihx.2.2.1 i h1).1
            · exact (ihx.2.2.2 i h1).1
          obtain ⟨b, hb, rfl⟩ := List.mem_map.mp himap
          exact hhead b hb
        have hne : ∀ i ∈ recordedIds evs, m.id < i := by
          intro i hi
          have hix := ihx.2.2.1 i hi
          have : i ≠ m.id := by
            intro hEq
            exact hix.2 (hrows' ▸ (hEq ▸ List.mem_append_right rows
              (List.mem_singleton.mpr rfl)))
          exact lt_of_le_of_ne (hle i (List.mem_append_left _ hi)) (Ne.symm this)
        refine ⟨?_, ?_, ?_, ?_⟩ <;>
          simp only [RunResult.prepend_events,
            show ([Event.invoke m.id, Event.record m.id] : List Event) ++ evs =
              Event.invoke m.id :: Event.record m.id :: evs from rfl,
            recordedIds_step, invokedIds_step]
        · exact List.sorted_cons.mpr ⟨hne, ihx.1⟩
        · exact List.sorted_cons.mpr
            ⟨fun i hi => hle i (List.mem_append_right _ hi), ihx.2.1⟩
        · intro i hi
          rcases List.mem_cons.mp hi with rfl | h1
          · exact ⟨List.mem_cons_self _ _, hrows ▸ hni⟩
          · refine ⟨List.mem_cons_of_mem _ (ihx.2.2.1 i h1).1, ?_⟩
            intro hcon
            exact (ihx.2.2.1 i h1).2
              (hrows' ▸ List.mem_append_left _ (hrows ▸ hcon))
        · intro i hi
          rcases List.mem_cons.mp hi with rfl | h1
          · exact ⟨List.mem_cons_self _ _, hmem⟩
          · exact ⟨List.mem_cons_of_mem _ (ihx.2.2.2 i h1).1,
              (ihx.2.2.2 i h1).2⟩
      | failed i c db' =>
        have hi := (apply_failed_inv hap).1
        refine ⟨?_, ?_, ?_, ?_⟩
        · show (recordedIds [Event.invoke i]).Sorted (· < ·)
          rw [recordedIds_invoke]
          exact List.sorted_nil
        · show (invokedIds [Event.invoke i]).Sorted (· ≤ ·)
          rw [invokedIds_invoke]
          exact List.sorted_singleton _
        · intro j hj
          have hj' : j ∈ recordedIds [Event.invoke i] := hj
          rw [recordedIds_invoke] at hj'
          exact absurd hj' (List.not_mem_nil j)
        · intro j hj
          have hj' : j ∈ invokedIds [Event.invoke i] := hj
          rw [invokedIds_invoke] at hj'
          have hji : j = i := List.mem_singleton.mp hj'
          subst hji
          rw [hi]
          exact ⟨List.mem_map.mpr ⟨m, List.mem_cons_self _ _, rfl⟩, hmem⟩

theorem run_loop_failed_shape (applied : List String) (l : List (Migration α)) :
    ∀ (db : DB α) (cause : Err) (db' : DB α) (evs : List Event),
      run_loop applied l db = .failed cause db' evs →
      ∃ i c evs0, cause = .migrationFailed i c ∧ evs = evs0 ++ [.invoke i] ∧
        db'.store = db.store.map (· ++ recordedIds evs0) := by
  induction l with
  | nil =>
    intro db cause db' evs h
    exact absurd h (by simp [run_loop])
  | cons m rest ih =>
    intro db cause db' evs h
    by_cases hmem : m.id ∈ applied
    · exact ih db cause db' evs (by simpa [run_loop, hmem] using h)
    · simp only [run_loop, hmem, if_false] at h
      cases hap : apply_migration m db with
      | ok dbn =>
        simp only [hap] at h
        obtain ⟨u, rows, hr, hs, hni, rfl⟩ := apply_ok_iff.mp hap
        cases hinner : run_loop applied rest ⟨some (rows ++ [m.id]), u⟩ with
        | ok d e =>
          rw [hinner] at h
          simp only [RunResult.prepend] at h
          exact RunResult.noConfusion h
        | failed c2 d2 e2 =>
          rw [hinner] at h
          simp only [RunResult.prepend] at h
          injection h with h1 h2 h3
          obtain ⟨i, c, evs0, hc, he, hst⟩ := ih _ c2 d2 e2 hinner
          refine ⟨i, c, Event.invoke m.id :: Event.record m.id :: evs0,
            h1 ▸ hc, ?_, ?_⟩
          · rw [← h3, he]
            rfl
          · rw [← h2, hst, hs]
            simp [recordedIds_step, List.append_assoc]
      | failed j c dbn =>
        simp only [hap] at h
        have hj := (apply_failed_inv hap).1
        have hdb := (apply_failed_inv hap).2
        injection h with h1 h2 h3
        refine ⟨j, c, [], h1.symm, ?_, ?_⟩
        · rw [← h3, List.nil_append]
        · rw [← h2, hdb]
          cases hs : db.store <;> simp [recordedIds]

theorem run_migrations_eq (ms : List (Migration α)) (db : DB α) :
    run_migrations ms db =
      match validate_migration_order ms (sortIds (storeRows db)) with
      | some e => .failed e (init_migrations_table db) []
      | none => run_loop (sortIds (storeRows db)) (List.insertionSort migLE ms)
          (init_migrations_table db) := by
  simp only [run_migrations, get_applied_init]

theorem run_migrations_order (ms : List (Migration α)) (db : DB α) :
    (recordedIds (run_migrations ms db).events).Sorted (· < ·) ∧
    (invokedIds (run_migrations ms db).events).Sorted (· ≤ ·) ∧
    (∀ i ∈ recordedIds (run_migrations ms db).events, i ∉ storeRows db) ∧
    (∀ i ∈ invokedIds (run_migrations ms db).events, i ∉ storeRows db) := by
  rw [run_migrations_eq]
  cases hv : validate_migration_order ms (sortIds (storeRows db)) with
  | some e =>
    exact ⟨List.sorted_nil, List.sorted_nil,
      by simp [RunResult.events, recordedIds],
      by simp [RunResult.events, invokedIds]⟩
  | none =>
    have hl := run_loop_order (sortIds (storeRows db))
      (List.insertionSort migLE ms) (init_migrations_table db)
      (List.sorted_insertionSort migLE ms)
    refine ⟨hl.1, hl.2.1, ?_, ?_⟩
    · intro i hi
      have hns := (hl.2.2.1 i hi).2
      rwa [storeRows_init] at hns
    · intro i hi
      intro hcon
      exact (hl.2.2.2 i hi).2 (mem_sortIds.mpr hcon)

theorem storeRows_some {db : DB α} {rows : List String}
    (h : db.store = some rows) : storeRows db = rows := by
  simp [storeRows, h]

theorem run_migrations_store (ms : List (Migration α)) (db : DB α) :
    storeRows (run_migrations ms db).db =
      storeRows db ++ recordedIds (run_migrations ms db).events := by
  rw [run_migrations_eq]
  cases hv : validate_migration_order ms (sortIds (storeRows db)) with
  | some e =>
    show storeRows (init_migrations_table db) = storeRows db ++ recordedIds []
    rw [storeRows_init]
    simp [recordedIds]
  | none =>
    have hs := run_loop_store (sortIds (storeRows db))
      (List.insertionSort migLE ms) (init_migrations_table db)
    rw [init_store, Option.map_some'] at hs
    exact storeRows_some hs

theorem run_migrations_count_le (ms : List (Migration α)) (db : DB α)
    (i : String) (h : List.count i (storeRows db) ≤ 1) :
    List.count i (recordedIds (run_migrations ms db).events) +
      List.count i (storeRows db) ≤ 1 := by
  have ho := run_migrations_order ms db
  have hnodup : (recordedIds (run_migrations ms db).events).Nodup := ho.1.nodup
  by_cases hmem : i ∈ storeRows db
  · have hnr : i ∉ recordedIds (run_migrations ms db).events :=
      fun hc => (ho.2.2.1 i hc) hmem
    have h0 : List.count i (recordedIds (run_migrations ms db).events) = 0 :=
      List.count_eq_zero.mpr hnr
    omega
  · have h0 : List.count i (storeRows db) = 0 := List.count_eq_zero.mpr hmem
    have h1 := List.nodup_iff_count_le_one.mp hnodup i
    omega

theorem run_seq_store (bs : List (List (Migration α))) :
    ∀ db : DB α,
      storeRows (run_seq db bs).1 = storeRows db ++ recordedIds (run_seq db bs).2 := by
  induction bs with
  | nil => intro db; simp [run_seq, recordedIds]
  | cons ms rest ih =>
    intro db
    simp only [run_seq]
    rw [recordedIds_append, ih (run_migrations ms db).db, run_migrations_store,
      List.append_assoc]

theorem run_seq_count (bs : List (List (Migration α))) :
    ∀ (db : DB α) (i : String), List.count i (storeRows db) ≤ 1 →
      List.count i (recordedIds (run_seq db bs).2) +
        List.count i (storeRows db) ≤ 1 := by
  induction bs with
  | nil =>
    intro db i h
    simpa [run_seq, recordedIds] using h
  | cons ms rest ih =>
    intro db i h
    simp only [run_seq]
    rw [recordedIds_append, List.count_append]
    have h1 := run_migrations_count_le ms db i h
    have hcnt : List.count i (storeRows (run_migrations ms db).db) =
        List.count i (storeRows db) +
          List.count i (recordedIds (run_migrations ms db).events) := by
      rw [run_migrations_store, List.count_append]
    have h2 := ih (run_migrations ms db).db i (by omega)
    omega

/-! Claim theorems. -/

/-- C1: if `apply_migration` fails at any point after the transaction
begins — the migration's `run` raises, or the insert of its id into
`_migrations` raises (e.g. duplicate key) — the transaction is rolled back:
the resulting state is exactly the pre-call state `db` (neither the
procedure's effects nor the record row persist), and the raised
`MigrationError` carries the migration's id and the underlying cause;
conversely every failure result carries `m.id` and the unchanged state. -/
theorem apply_migration_failure_rolls_back (m : Migration α) (db : DB α) :
    (∀ e, m.run db.user = .error e →
      apply_migration m db = .failed m.id (.userErr e) db) ∧
    (∀ u c, m.run db.user = .ok u →
      insert_migration_row db.store m.id = .error c →
      apply_migration m db = .failed m.id c db) ∧
    (∀ i c db', apply_migration m db = .failed i c db' → i = m.id ∧ db' = db) :=
  ⟨fun _ h => apply_run_error h,
   fun _ _ h h' => apply_insert_error h h',
   fun _ _ _ h => apply_failed_inv h⟩

/-- C1 at a concrete input: a raising migration fails and rolls back. -/
theorem apply_migration_failure_rolls_back_witness :
    apply_migration (mkFail "a") (dbWith []) =
      .failed "a" (.userErr "boom") (dbWith []) :=
  (apply_migration_failure_rolls_back (mkFail "a") (dbWith [])).1 "boom" rfl

/-- C2: `run_migrations` sorts the whole candidate collection by id and
walks it in that order, skipping applied ids: the invoked ids are sorted
ascending, the migrations actually applied in the run execute in strictly
ascending id order, and no id already in the applied-set read at the start
(the store's rows) is ever invoked, so nothing re-executes. -/
theorem run_migrations_ascending_and_skips (ms : List (Migration α)) (db : DB α) :
    (recordedIds (run_migrations ms db).events).Sorted (· < ·) ∧
    (invokedIds (run_migrations ms db).events).Sorted (· ≤ ·) ∧
    ∀ i ∈ invokedIds (run_migrations ms db).events, i ∉ storeRows db := by
  have h := run_migrations_order ms db
  exact ⟨h.1, h.2.1, h.2.2.2⟩

/-- C3: `validate_migration_order` always succeeds on an empty applied-set;
on a non-empty one, with `maxString applied` the greatest applied id, it
succeeds iff no candidate outside the applied-set has an id below that
maximum, and fails (with the ordering-violation error naming the maximum)
iff some such candidate exists. -/
theorem validate_migration_order_policy (ms : List (Migration α))
    (applied : List String) :
    (applied ≠ [] →
      maxString applied ∈ applied ∧ ∀ a ∈ applied, a ≤ maxString applied) ∧
    (validate_migration_order ms applied = none ↔
      applied = [] ∨ ∀ m ∈ ms, m.id ∉ applied → ¬ m.id < maxString applied) ∧
    (validate_migration_order ms applied =
        some (.orderViolation (maxString applied)) ↔
      applied ≠ [] ∧ ∃ m ∈ ms, m.id ∉ applied ∧ m.id < maxString applied) := by
  refine ⟨maxString_spec applied, validate_none_iff ms applied, ?_⟩
  rw [validate_some_iff]
  simp

/-- C3 at a concrete input: a new id below the applied maximum is refused. -/
theorem validate_migration_order_policy_witness :
    validate_migration_order [mkFail "a"] ["b"] = some (.orderViolation "b") :=
  (validate_migration_order_policy [mkFail "a"] ["b"]).2.2.mpr
    ⟨by decide, mkFail "a", List.mem_cons_self _ _, by decide,
      String.lt_iff_toList_lt.mpr (by decide)⟩

/-- C4: when `run_migrations` fails with an apply failure on id `i`, the
failing invocation is the run's last event — no later migration is invoked
— and the record rows at the failure are exactly the initial rows plus the
migrations applied before it, each still committed with its row present;
the raised run-level error wraps the originating failure. -/
theorem run_migrations_halts_on_first_failure (ms : List (Migration α))
    (db : DB α) (i : String) (c : Cause) (db' : DB α) (evs : List Event)
    (h : run_migrations ms db = .failed (.migrationFailed i c) db' evs) :
    ∃ evs0, evs = evs0 ++ [.invoke i] ∧
      storeRows db' = storeRows db ++ recordedIds evs0 := by
  rw [run_migrations_eq] at h
  cases hv : validate_migration_order ms (sortIds (storeRows db)) with
  | some e =>
    rw [hv] at h
    injection h with h1 h2 h3
    obtain ⟨he, -, -⟩ := (validate_some_iff ms (sortIds (storeRows db)) e).mp hv
    exact Err.noConfusion (he.symm.trans h1)
  | none =>
    rw [hv] at h
    obtain ⟨i', c', evs0, hc, he, hst⟩ :=
      run_loop_failed_shape _ _ _ _ _ _ h
    injection hc with hci hcc
    refine ⟨evs0, hci ▸ he, ?_⟩
    rw [init_store db, Option.map_some'] at hst
    exact storeRows_some hst

/-- C4 at a concrete input: three migrations, the second failing — the run
stops there with exactly the first recorded. -/
theorem run_migrations_halts_on_first_failure_witness :
    ∃ evs0,
      ([Event.invoke "1", Event.record "1", Event.invoke "2"] : List Event) =
        evs0 ++ [Event.invoke "2"] ∧
      storeRows (⟨some ["1"], ["t1"]⟩ : DB Tables) =
        storeRows emptyDB ++ recordedIds evs0 :=
  run_migrations_halts_on_first_failure
    [mkCreate "1" "t1", mkFail "2", mkCreate "3" "t3"] emptyDB
    "2" (.userErr "boom") ⟨some ["1"], ["t1"]⟩
    [Event.invoke "1", Event.record "1", Event.invoke "2"] (by
      have h23 : ∀ b ∈ [mkCreate "3" "t3"], migLE (mkFail "2") b := by
        intro b hb
        have hb3 : b = mkCreate "3" "t3" := List.mem_singleton.mp hb
        subst hb3
        exact String.le_iff_toList_le.mpr (by decide)
      have h12 : ∀ b ∈ [mkFail "2", mkCreate "3" "t3"],
          migLE (mkCreate "1" "t1") b := by
        intro b hb
        rcases List.mem_cons.mp hb with hb1 | hb1
        · subst hb1
          exact String.le_iff_toList_le.mpr (by decide)
        · have hb3 : b = mkCreate "3" "t3" := List.mem_singleton.mp hb1
          subst hb3
          exact String.le_iff_toList_le.mpr (by decide)
      have hsort : List.insertionSort migLE
          [mkCreate "1" "t1", mkFail "2", mkCreate "3" "t3"] =
          [mkCreate "1" "t1", mkFail "2", mkCreate "3" "t3"] := by
        rw [List.insertionSort_cons migLE h12,
          List.insertionSort_cons migLE h23]
        rfl
      rw [run_migrations_eq, hsort]
      rfl)

/-- C5, counterexample: a migration whose procedure fails is rolled back and
re-invoked by a later `run_migrations` call over the same database, so its
`run` executes twice in total — refuting the claim that `m.run` is executed
at most once across any sequence of run invocations. -/
theorem run_reexecutes_failed_migration :
    ¬ List.count "a"
        (invokedIds (run_seq emptyDB [[mkFail "a"], [mkFail "a"]]).2) ≤ 1 := by
  decide

/-- C5 (amended): across any sequence of `run_migrations` invocations over
the same database, a migration id is recorded as applied at most once — so
`m.run` COMPLETES successfully at most once, though a failed, rolled-back
attempt may be invoked again — and `_migrations` holds at most one row for
it, the rows being exactly the initial ones plus the recorded ids, inserted
once each and never updated or deleted by the engine. -/
theorem migration_recorded_at_most_once (bs : List (List (Migration α)))
    (db : DB α) (i : String) (h : List.count i (storeRows db) ≤ 1) :
    List.count i (recordedIds (run_seq db bs).2) +
        List.count i (storeRows db) ≤ 1 ∧
    storeRows (run_seq db bs).1 = storeRows db ++ recordedIds (run_seq db bs).2 :=
  ⟨run_seq_count bs db i h, run_seq_store bs db⟩

/-- C5 at a concrete input: re-running the same migration records it once. -/
theorem migration_recorded_at_most_once_witness :
    List.count "a"
        (recordedIds (run_seq emptyDB [[mkCreate "a" "t"], [mkCreate "a" "t"]]).2) +
        List.count "a" (storeRows emptyDB) ≤ 1 ∧
    storeRows (run_seq emptyDB [[mkCreate "a" "t"], [mkCreate "a" "t"]]).1 =
      storeRows emptyDB ++
        recordedIds (run_seq emptyDB [[mkCreate "a" "t"], [mkCreate "a" "t"]]).2 :=
  migration_recorded_at_most_once [[mkCreate "a" "t"], [mkCreate "a" "t"]]
    emptyDB "a" (by decide)

/-- C6: a successful `apply_migration` is exactly the strict sequence
begin; `m.run` on the transactional state; insert of the record row for
`m.id`; commit — it succeeds iff both the procedure and the insert succeed,
and then the committed state carries the procedure's effects together with
the appended record row, atomically: never one without the other. -/
theorem apply_migration_success_atomic (m : Migration α) (db db' : DB α) :
    apply_migration m db = .ok db' ↔
      ∃ u rows, m.run db.user = .ok u ∧ db.store = some rows ∧ m.id ∉ rows ∧
        db' = ⟨some (rows ++ [m.id]), u⟩ :=
  apply_ok_iff

/-- C6 at a concrete input: success commits effect and record together. -/
theorem apply_migration_success_atomic_witness :
    apply_migration (mkCreate "a" "t") (dbWith []) = .ok ⟨some ["a"], ["t"]⟩ :=
  (apply_migration_success_atomic (mkCreate "a" "t") (dbWith [])
      ⟨some ["a"], ["t"]⟩).mpr ⟨["t"], [], rfl, rfl, by decide, rfl⟩

/-- C7: when ordering validation fails on the applied ids read from the
store, `run_migrations` raises exactly that ordering-violation error with
an empty ghost trace — no migration's procedure is invoked — and the state
it carries is the initial one (only the store's lazy creation happened: its
rows and the user state are unchanged, no record row was added). -/
theorem run_migrations_order_violation_untouched (ms : List (Migration α))
    (db : DB α) (e : Err)
    (h : validate_migration_order ms (sortIds (storeRows db)) = some e) :
    run_migrations ms db = .failed e (init_migrations_table db) [] ∧
    storeRows (init_migrations_table db) = storeRows db ∧
    (init_migrations_table db).user = db.user := by
  refine ⟨?_, storeRows_init db, init_user db⟩
  rw [run_migrations_eq, h]

/-- C7 at the spec's example: applied `{"20240320000002"}` with candidates
`20240320000001, 20240320000002` raises and applies nothing. -/
theorem run_migrations_order_violation_untouched_witness :
    run_migrations
        [mkCreate "20240320000001" "t1", mkCreate "20240320000002" "t2"]
        (dbWith ["20240320000002"]) =
      .failed (.orderViolation "20240320000002")
        (dbWith ["20240320000002"]) [] ∧
    storeRows (init_migrations_table (dbWith ["20240320000002"])) =
      storeRows (dbWith ["20240320000002"]) ∧
    (init_migrations_table (dbWith ["20240320000002"])).user =
      (dbWith ["20240320000002"]).user :=
  run_migrations_order_violation_untouched _ _ _
    ((validate_some_iff _ _ _).mpr ⟨rfl, by decide,
      mkCreate "20240320000001" "t1", List.mem_cons_self _ _, by decide,
      String.lt_iff_toList_lt.mpr (by decide)⟩)

/-- C8: `init_migrations_table` (CREATE TABLE IF NOT EXISTS) is idempotent:
a second call is the identity, a call on a state whose store already exists
changes nothing and never errors, and after any call the store exists with
the original rows and user state preserved. -/
theorem init_migrations_table_idempotent (db : DB α) :
    init_migrations_table (init_migrations_table db) =
      init_migrations_table db ∧
    (∀ rows, db.store = some rows → init_migrations_table db = db) ∧
    (init_migrations_table db).store = some (storeRows db) ∧
    (init_migrations_table db).user = db.user := by
  refine ⟨?_, ?_, init_store db, init_user db⟩
  · cases hs : db.store <;> simp [init_migrations_table, hs]
  · intro rows hrows
    simp [init_migrations_table, hrows]

/-- C8 at a concrete input: the store already exists, the call is a no-op. -/
theorem init_migrations_table_idempotent_witness :
    init_migrations_table (dbWith ["a"]) = dbWith ["a"] :=
  (init_migrations_table_idempotent (dbWith ["a"])).2.1 ["a"] rfl

/-- C9: two candidates sharing one not-yet-applied id are not rejected by
any up-front duplicate-id check: the first is applied and committed, then
the second fails as an ordinary apply failure — its record insert violates
the `_migrations` primary key — with its transaction rolled back, so the
final user state is `u1` (the second procedure's effect `u2` is gone) and
exactly one record row for the id exists. -/
theorem run_migrations_duplicate_id (m1 m2 : Migration α) (db : DB α)
    (u1 u2 : α)
    (hid : m1.id = m2.id)
    (hnew : m1.id ∉ storeRows db)
    (hval : validate_migration_order [m1, m2] (sortIds (storeRows db)) = none)
    (hr1 : m1.run db.user = .ok u1)
    (hr2 : m2.run u1 = .ok u2) :
    run_migrations [m1, m2] db =
      .failed (.migrationFailed m2.id (.duplicateKey m2.id))
        ⟨some (storeRows db ++ [m1.id]), u1⟩
        [.invoke m1.id, .record m1.id, .invoke m2.id] := by
  have hsort : List.insertionSort migLE [m1, m2] = [m1, m2] := by
    simp only [List.insertionSort, List.orderedInsert]
    rw [if_pos (show migLE m1 m2 from le_of_eq hid)]
  have hm1 : m1.id ∉ sortIds (storeRows db) :=
    fun hc => hnew (mem_sortIds.mp hc)
  have hm2 : m2.id ∉ sortIds (storeRows db) := hid ▸ hm1
  have hap1 : apply_migration m1 (init_migrations_table db) =
      .ok ⟨some (storeRows db ++ [m1.id]), u1⟩ :=
    apply_ok_iff.mpr ⟨u1, storeRows db, by rw [init_user]; exact hr1,
      init_store db, hnew, rfl⟩
  have hap2 : apply_migration m2
        (⟨some (storeRows db ++ [m1.id]), u1⟩ : DB α) =
      .failed m2.id (.duplicateKey m2.id)
        ⟨some (storeRows db ++ [m1.id]), u1⟩ := by
    refine apply_insert_error hr2 ?_
    show insert_migration_row (some (storeRows db ++ [m1.id])) m2.id = _
    simp [insert_migration_row, hid]
  rw [run_migrations_eq, hval, hsort]
  simp only [run_loop, if_neg hm1, if_neg hm2, hap1, hap2, RunResult.prepend]
  rfl

/-- C9 at a concrete input: two fresh migrations with id "a". -/
theorem run_migrations_duplicate_id_witness :
    run_migrations [mkCreate "a" "t1", mkCreate "a" "t2"] emptyDB =
      .failed (.migrationFailed "a" (.duplicateKey "a"))
        ⟨some ["a"], ["t1"]⟩ [.invoke "a", .record "a", .invoke "a"] :=
  run_migrations_duplicate_id (mkCreate "a" "t1") (mkCreate "a" "t2") emptyDB
    ["t1"] ["t1", "t2"] rfl (by decide) (by decide) rfl rfl

/-- C10: `get_applied_migrations` is a read-only query (a pure function of
the state, one SELECT) returning exactly the stored ids as a list sorted in
ascending lexicographic order — strictly ascending when the rows are
distinct, as the primary key guarantees. -/
theorem get_applied_migrations_sorted (db : DB α) (rows : List String)
    (h : db.store = some rows) :
    get_applied_migrations db = .ok (sortIds rows) ∧
    (sortIds rows).Sorted (· ≤ ·) ∧
    List.Perm (sortIds rows) rows ∧
    (rows.Nodup → (sortIds rows).Sorted (· < ·)) := by
  refine ⟨by simp [get_applied_migrations, h],
    List.sorted_insertionSort _ _, List.perm_insertionSort _ _, ?_⟩
  intro hnd
  exact (List.sorted_insertionSort _ _).lt_of_le
    ((List.perm_insertionSort _ rows).nodup_iff.mpr hnd)

/-- C10 at a concrete input: rows `["b", "a"]` come back sorted. -/
theorem get_applied_migrations_sorted_witness :
    get_applied_migrations (dbWith ["b", "a"]) = .ok (sortIds ["b", "a"]) ∧
    (sortIds ["b", "a"]).Sorted (· ≤ ·) ∧
    List.Perm (sortIds ["b", "a"]) ["b", "a"] ∧
    ((["b", "a"] : List String).Nodup →
      (sortIds ["b", "a"]).Sorted (· < ·)) :=
  get_applied_migrations_sorted (dbWith ["b", "a"]) ["b", "a"] rfl
